import Mathlib

/-!
Shallow embedding of the table-of-contents plugin in `src/jquery.toc.js`.

The two core components are:
* the id assigner (function `generateUniqueId` and the surrounding
  `.attr("id", function (index, attr) ...)` pass, lines 55-116 of the source);
* the outline builder (the `.each` pass over headings, lines 117-146).

Machine strings are modelled as Lean `String`s (lists of characters); the
document is modelled as the multiset of id attributes present in it, and
`document.getElementById(x) !== null` is modelled by `idInUse` below,
following the DOM rule that an id attribute set to the empty string gives
the element no ID, so `getElementById` never matches the empty string.
-/

namespace Toc

/-- Character class of the JavaScript regex `\s` (whitespace). -/
def jsIsSpace (c : Char) : Bool :=
  c = ' ' || c = '\t' || c = '\n' || c = '\r' || c = '\x0b' || c = '\x0c' ||
  c = '\u00a0' || c = '\u1680' || ('\u2000' ≤ c && c ≤ '\u200a') ||
  c = '\u2028' || c = '\u2029' || c = '\u202f' || c = '\u205f' ||
  c = '\u3000' || c = '\ufeff'

/-- Character class of the JavaScript regex `\w` : `[A-Za-z0-9_]`. -/
def jsIsWord (c : Char) : Bool :=
  ('a' ≤ c && c ≤ 'z') || ('A' ≤ c && c ≤ 'Z') || ('0' ≤ c && c ≤ '9') || c = '_'

/-- Characters kept by the sanitizing regex `replace(/[^\w\-\s]/g,'')`
(source line 87): word characters, the hyphen, and whitespace. -/
def keptChar (c : Char) : Bool :=
  jsIsWord c || c = '-' || jsIsSpace c

/-- One pass of `replace(/\s+/g,' ')` (source line 87): every maximal run of
whitespace becomes a single space.  The boolean flag records whether the
previous character was part of a whitespace run. -/
def collapseAux : List Char → Bool → List Char
  | [], _ => []
  | c :: cs, prevWS =>
    if jsIsSpace c then
      if prevWS then collapseAux cs true else ' ' :: collapseAux cs true
    else c :: collapseAux cs false

/-- Normalisation applied to the heading text at the start of
`generateUniqueId` (source lines 82-87): the empty text is replaced by the
placeholder `"?"`, whitespace runs are collapsed to single spaces, and every
character outside `[\w\-\s]` is removed.  Note that the placeholder `"?"` is
itself removed by the character filter. -/
def sanitize (text : String) : String :=
  let t := if text.length = 0 then "?" else text
  String.mk ((collapseAux t.data false).filter keptChar)

/-- The three branches of the `switch (thisOptions.idFormat)` statement
(source lines 95-107): option string `"kebab-case"` selects `kebab`, option
string `"camelCase"` selects `camel`, and every other option value takes the
default branch `underscore`. -/
inductive IdFormat : Type where
  | underscore : IdFormat
  | kebab : IdFormat
  | camel : IdFormat
deriving DecidableEq, Repr

/-- The `spaceReplacement` assigned in each switch branch
(source lines 97, 101, 105). -/
def spaceReplacement : IdFormat → String
  | .underscore => "_"
  | .kebab => "-"
  | .camel => ""

/-- JavaScript `str.replace(/\s/g, r)` for a single replacement character. -/
def replaceSpaces (s : String) (r : Char) : String :=
  String.mk (s.data.map fun c => if jsIsSpace c then r else c)

/-- JavaScript `str.toLowerCase()`.  Only ASCII letters can reach this call,
because the sanitizer has already removed everything outside `[\w\-\s]`, so
the ASCII `Char.toLower` is faithful. -/
def lowerAll (s : String) : String :=
  String.mk (s.data.map Char.toLower)

/-- JavaScript `word.charAt(0).toUpperCase() + word.slice(1).toLowerCase()`
(source line 73). -/
def capitalizeWord (w : String) : String :=
  match w.data with
  | [] => ""
  | c :: cs => String.mk (c.toUpper :: cs.map Char.toLower)

/-- JavaScript `str.split(' ')` on the character list: split at every
occurrence of the space character, keeping empty fragments (so the result is
never the empty list, and splitting the empty string yields one empty
fragment, as in JavaScript). -/
def splitOnSpace : List Char → List (List Char)
  | [] => [[]]
  | c :: cs =>
    if c = ' ' then [] :: splitOnSpace cs
    else
      match splitOnSpace cs with
      | [] => [[c]]
      | w :: ws => (c :: w) :: ws

/-- The helper `toCamelCase` (source lines 66-75): split on single spaces,
fully lower-case the first word, capitalise each later word, join with no
separator. -/
def toCamelCase (str : String) : String :=
  match (splitOnSpace str.data).map String.mk with
  | [] => ""
  | w :: ws => lowerAll w ++ String.join (ws.map capitalizeWord)

/-- The `baseId` computed by the switch statement (source lines 95-107) from
the already-sanitized text. -/
def baseIdOf (fmt : IdFormat) (text : String) : String :=
  match fmt with
  | .underscore => replaceSpaces text '_'
  | .kebab => lowerAll (replaceSpaces text '-')
  | .camel => toCamelCase text

/-- Model of `document.getElementById(s) !== null` (source line 109) over a
registry listing the id attributes present in the document.  Per the DOM
standard an element whose id attribute is the empty string has no ID, so the
empty string is never found. -/
def idInUse (registry : List String) (s : String) : Bool :=
  !s.isEmpty && registry.contains s

/-- The `while` loop of `generateUniqueId` (source lines 109-111), written
with explicit fuel.  Loop state: the current `suffix` string and the next
`count` to use.  While the candidate `baseId ++ suffix` is in use, the
suffix becomes `spaceReplacement ++ count` and the count is incremented.
The fuel passed by `generateUniqueId` is large enough that the fuel-exhausted
branch is never reached (theorem `idLoop_spec` below). -/
def idLoop (registry : List String) (baseId sep : String) :
    Nat → String → Nat → String
  | 0, suffix, _ => baseId ++ suffix
  | fuel + 1, suffix, count =>
    if idInUse registry (baseId ++ suffix) then
      idLoop registry baseId sep fuel (sep ++ Nat.repr count) (count + 1)
    else baseId ++ suffix

/-- The function `generateUniqueId` (source lines 77-114): sanitize the text,
derive the base id for the chosen format, then search for the first unused
candidate starting from the unsuffixed base. -/
def generateUniqueId (fmt : IdFormat) (registry : List String)
    (text : String) : String :=
  let t := sanitize text
  let baseId := baseIdOf fmt t
  idLoop registry baseId (spaceReplacement fmt) (registry.length + 2) "" 1

/-- The suffix string the loop carries when it is about to test the
candidate of index `k` : empty for `k = 0`, `spaceReplacement ++ k`
afterwards. -/
def suffixAt (sep : String) : Nat → String
  | 0 => ""
  | k + 1 => sep ++ Nat.repr (k + 1)

/-- The `k`-th candidate tested by the collision loop: the bare base id for
`k = 0`, then `baseId ++ sep ++ "1"`, `baseId ++ sep ++ "2"`, ... -/
def candAt (baseId sep : String) (k : Nat) : String :=
  baseId ++ suffixAt sep k

/-- Candidate of index `k` for a raw heading text under a format: the base
id derived from the sanitized text, with the `k`-th suffix. -/
def candidate (fmt : IdFormat) (text : String) (k : Nat) : String :=
  candAt (baseIdOf fmt (sanitize text)) (spaceReplacement fmt) k

/-- A heading as seen by the plugin: its text content, its pre-existing id
attribute (the empty string standing for an absent attribute, which is
falsy in the `attr || generateUniqueId(...)` test on source line 116), and
its hierarchy level (the index of the first matching heading selector,
source lines 119-121). -/
structure Heading where
  text : String
  existingId : String
  level : Nat
deriving DecidableEq, Repr

/-- One step of the id-assignment pass, the callback on source line 116:
`return attr || generateUniqueId($(this).text())`.  A truthy (non-empty)
pre-existing id is returned unchanged and the document is not changed;
otherwise a fresh id is generated and, because jQuery writes the returned
value into the id attribute, it becomes visible to later
`document.getElementById` calls, which we model by consing it onto the
registry. -/
def assignId (fmt : IdFormat) (registry : List String) (h : Heading) :
    String × List String :=
  if h.existingId ≠ "" then
    (h.existingId, registry)
  else
    let i := generateUniqueId fmt registry h.text
    (i, i :: registry)

/-- The id-assignment pass over the whole heading sequence, in document
order (the `.attr("id", ...)` iteration, source lines 55-117), returning
the assigned ids and the final registry. -/
def assignIds (fmt : IdFormat) (registry : List String) :
    List Heading → List String × List String
  | [] => ([], registry)
  | h :: rest =>
    let p := assignId fmt registry h
    let q := assignIds fmt p.2 rest
    (p.1 :: q.1, q.2)

/-- The nonempty pre-existing ids carried by the headings. -/
def existingIds (hs : List Heading) : List String :=
  hs.filterMap fun h => if h.existingId = "" then none else some h.existingId

/-- The ids present in the document when the run starts: ids of elements
other than the headings (`extra`), together with the id attributes the
headings already carry. -/
def docIds (extra : List String) (hs : List Heading) : List String :=
  extra ++ existingIds hs

/-- A whole id-assignment run against the live document: the initial
registry holds every id already present in the document. -/
def runAssign (fmt : IdFormat) (extra : List String)
    (hs : List Heading) : List String :=
  (assignIds fmt (docIds extra hs) hs).1

/-- A list item (`<li>`) of the generated outline.  It carries the visible
text and the id the contained anchor links to (`$("<a/>").text(...)` with
href `"#" ++ id`, source lines 141-143), plus the nested lists later
appended into this item (`appendTo(parentItem)`, source line 131).  In the
embedding a nested list is attached to its parent item when it is popped
off the stack or at the end of the run; between push and pop no item is
ever added to a non-top list, so this produces the same tree the DOM
mutation produces. -/
inductive Item : Type where
  | mk : String → String → List (List Item) → Item

/-- Visible text of an outline item. -/
def Item.text : Item → String
  | .mk t _ _ => t

/-- Id targeted by the anchor of an outline item. -/
def Item.id : Item → String
  | .mk _ i _ => i

/-- Nested lists appended into an outline item. -/
def Item.subs : Item → List (List Item)
  | .mk _ _ s => s

/-- Append a finished nested list `sub` into the last item of the list
`parent`.  This realises, at pop time, the `appendTo(parentItem)` of source
line 131; the code only pushes a nested list when the parent has a last
item, so the empty-parent branch is unreachable from the plugin entry
point. -/
def appendSub : List Item → List Item → List Item
  | [], _ => []
  | [Item.mk t i subs], sub => [Item.mk t i (subs ++ [sub])]
  | x :: y :: rest, sub => x :: appendSub (y :: rest) sub

/-- The `.each` pass state (source lines 29-36): the upside-down stack of
currently open lists, head = top, last = root container, together with
`currentLevel`, the level of the previously processed heading (0 before the
first one). -/
structure TocState where
  stack : List (List Item)
  currentLevel : Nat

/-- Append a freshly built list item to the list at the top of the stack
(`$("<li/>").appendTo(stack[0])`, source line 141). -/
def appendItem (s : List (List Item)) (it : Item) : List (List Item) :=
  match s with
  | [] => []
  | top :: rest => (top ++ [it]) :: rest

/-- Remove the top entry of the stack, folding the finished list it holds
into the last item of the list below (where the DOM already attached it at
push time). -/
def popOnce : List (List Item) → List (List Item)
  | top :: next :: rest => appendSub next top :: rest
  | s => s

/-- The `stack.splice(0, k)` of source line 137: remove `k` entries from
the top of the stack. -/
def popN : Nat → List (List Item) → List (List Item)
  | 0, s => s
  | k + 1, s => popN k (popOnce s)

/-- Processing of one heading by the `.each` pass (source lines 117-146).
With `level` the heading level and `currentLevel` the previous one:
* deeper level (`level > currentLevel`, source line 123): if the top list
  already has a last item, push a new empty nested list (source lines
  129-132), otherwise keep the stack (a skipped level);
* otherwise (source line 137): remove
  `min (currentLevel - level) (max (stack.length - 1) 0)` entries from the
  top (`Nat` subtraction is the clamped `Math.max(stack.length - 1, 0)`).
Then append the new list item to the top list and record the level (source
lines 140-145). -/
def processHeading (st : TocState) (level : Nat) (text id : String) :
    TocState :=
  if st.currentLevel < level then
    let stack :=
      match st.stack with
      | [] => st.stack
      | top :: _ => if top.isEmpty then st.stack else [] :: st.stack
    { stack := appendItem stack (.mk text id []), currentLevel := level }
  else
    let k := min (st.currentLevel - level) (st.stack.length - 1)
    { stack := appendItem (popN k st.stack) (.mk text id []),
      currentLevel := level }

/-- The state before the first heading: the stack holds just the root
container (an empty list) and `currentLevel` is 0 (source lines 33-35). -/
def initState : TocState :=
  { stack := [[]], currentLevel := 0 }

/-- The outline-building pass: fold over the headings paired with their
assigned ids, in document order. -/
def buildOutline (hs : List Heading) (ids : List String) : TocState :=
  (hs.zip ids).foldl (fun st p => processHeading st p.1.level p.1.text p.2)
    initState

/-- Read off the finished tree: fold every still-open list into its parent
item (the DOM already holds them nested; the embedding attaches them now)
and return the root list. -/
def finalize : List (List Item) → List Item
  | [] => []
  | top :: rest => rest.foldl (fun acc f => appendSub f acc) top

/-- The whole plugin run on one root element: assign ids in document order,
then build the outline tree. -/
def runToc (fmt : IdFormat) (extra : List String) (hs : List Heading) :
    List Item :=
  finalize (buildOutline hs (runAssign fmt extra hs)).stack

mutual

/-- Number of list items inside an item, itself included. -/
def itemSize : Item → Nat
  | .mk _ _ subs => 1 + subsSize subs

/-- Number of list items in a family of lists (also used for the whole
stack). -/
def subsSize : List (List Item) → Nat
  | [] => 0
  | l :: ls => frameSize l + subsSize ls

/-- Number of list items in one list, nested items included. -/
def frameSize : List Item → Nat
  | [] => 0
  | i :: is => itemSize i + frameSize is

end

/-! Decimal numerals: the collision loop appends `Nat.repr count` suffixes,
and its correctness rests on distinct counts giving distinct suffixes.  We
prove `Nat.repr` injective through a decode round-trip. -/

/-- Numeric value of a decimal digit character. -/
def digitVal (c : Char) : Nat := c.toNat - '0'.toNat

/-- Decode a most-significant-first list of decimal digit characters. -/
def decodeDigits (l : List Char) : Nat :=
  l.foldl (fun a c => a * 10 + digitVal c) 0

theorem toDigitsCore_append (b : Nat) :
    ∀ (f n : Nat) (acc : List Char),
      Nat.toDigitsCore b f n acc = Nat.toDigitsCore b f n [] ++ acc := by
  intro f
  induction f with
  | zero => intro n acc; simp [Nat.toDigitsCore]
  | succ f ih =>
    intro n acc
    simp only [Nat.toDigitsCore]
    by_cases h : n / b = 0
    · simp [h]
    · simp only [if_neg h]
      rw [ih (n / b) (Nat.digitChar (n % b) :: acc),
        ih (n / b) [Nat.digitChar (n % b)]]
      simp

theorem toDigitsCore_fuel (b : Nat) (hb : 1 < b) :
    ∀ (n f g : Nat), n < f → n < g →
      Nat.toDigitsCore b f n [] = Nat.toDigitsCore b g n [] := by
  intro n
  induction n using Nat.strong_induction_on with
  | _ n ih =>
    intro f g hf hg
    match f, g with
    | f + 1, g + 1 =>
      simp only [Nat.toDigitsCore]
      by_cases h : n / b = 0
      · simp [h]
      · simp only [if_neg h]
        have hn : 0 < n := by
          rcases Nat.eq_zero_or_pos n with rfl | hp
          · simp [Nat.zero_div] at h
          · exact hp
        have hlt : n / b < n := Nat.div_lt_self hn hb
        rw [toDigitsCore_append b f, toDigitsCore_append b g,
          ih (n / b) hlt f g (by omega) (by omega)]

theorem toDigits_small (b n : Nat) (h : n < b) :
    Nat.toDigits b n = [Nat.digitChar n] := by
  have hd : n / b = 0 := Nat.div_eq_of_lt h
  have hm : n % b = n := Nat.mod_eq_of_lt h
  simp [Nat.toDigits, Nat.toDigitsCore, hd, hm]

theorem toDigits_step (b n : Nat) (hb : 1 < b) (h : b ≤ n) :
    Nat.toDigits b n
      = Nat.toDigits b (n / b) ++ [Nat.digitChar (n % b)] := by
  have h0 : n / b ≠ 0 := by
    have := Nat.one_le_div_iff (by omega : 0 < b) |>.2 h
    omega
  have hlt : n / b < n := Nat.div_lt_self (by omega) hb
  simp only [Nat.toDigits, Nat.toDigitsCore, if_neg h0]
  rw [toDigitsCore_append b n (n / b)]
  congr 1
  exact toDigitsCore_fuel b hb (n / b) n (n / b + 1) hlt (Nat.lt_succ_self _)

theorem decodeDigits_append_one (l : List Char) (c : Char) :
    decodeDigits (l ++ [c]) = decodeDigits l * 10 + digitVal c := by
  simp [decodeDigits, List.foldl_append]

theorem digitVal_digitChar : ∀ m, m < 10 → digitVal (Nat.digitChar m) = m := by
  decide

theorem decodeDigits_toDigits :
    ∀ n : Nat, decodeDigits (Nat.toDigits 10 n) = n := by
  intro n
  induction n using Nat.strong_induction_on with
  | _ n ih =>
    by_cases h : n < 10
    · rw [toDigits_small 10 n h]
      have := digitVal_digitChar n h
      simp [decodeDigits, this]
    · push_neg at h
      rw [toDigits_step 10 n (by norm_num) h, decodeDigits_append_one,
        ih (n / 10) (Nat.div_lt_self (by omega) (by norm_num)),
        digitVal_digitChar (n % 10) (Nat.mod_lt _ (by norm_num))]
      omega

theorem repr_injective {m n : Nat} (h : Nat.repr m = Nat.repr n) : m = n := by
  have hd : Nat.toDigits 10 m = Nat.toDigits 10 n := by
    have := congrArg String.data h
    simpa [Nat.repr, List.asString] using this
  calc m = decodeDigits (Nat.toDigits 10 m) := (decodeDigits_toDigits m).symm
    _ = decodeDigits (Nat.toDigits 10 n) := by rw [hd]
    _ = n := decodeDigits_toDigits n

/-! Correctness of the collision loop. -/

theorem idInUse_iff (reg : List String) (s : String) :
    idInUse reg s = true ↔ s ≠ "" ∧ s ∈ reg := by
  simp only [idInUse, Bool.and_eq_true, Bool.not_eq_true', List.contains,
    List.elem_iff, ne_eq]
  constructor
  · rintro ⟨h1, h2⟩
    refine ⟨fun he => ?_, h2⟩
    rw [he] at h1
    exact absurd h1 (by decide)
  · rintro ⟨h1, h2⟩
    refine ⟨?_, h2⟩
    cases hb : s.isEmpty with
    | false => rfl
    | true => exact absurd ((String.isEmpty_iff s).1 hb) h1

theorem append_ne_empty_left (a b : String) (ha : a ≠ "") : a ++ b ≠ "" := by
  intro h
  apply ha
  have hd := congrArg String.data h
  simp only [String.data_append] at hd
  have : a.data = [] := (List.append_eq_nil.1 hd).1
  exact String.ext this

theorem candAt_inj (base sep : String) :
    ∀ j k : Nat, candAt base sep (j + 1) = candAt base sep (k + 1) → j = k := by
  intro j k h
  have hd := congrArg String.data h
  simp only [candAt, suffixAt, String.data_append] at hd
  have h2 : (Nat.repr (j + 1)).data = (Nat.repr (k + 1)).data :=
    List.append_cancel_left (List.append_cancel_left hd)
  have h3 := repr_injective (String.ext h2)
  omega

theorem exists_free_cand (reg : List String) (base sep : String) :
    ∃ j, j < reg.length + 2 ∧ idInUse reg (candAt base sep j) = false := by
  by_contra hc
  push_neg at hc
  have htaken : ∀ j, j < reg.length + 2 → candAt base sep j ∈ reg := by
    intro j hj
    have h1 := hc j hj
    have h2 : idInUse reg (candAt base sep j) = true := by
      cases hb : idInUse reg (candAt base sep j) with
      | false => exact absurd hb h1
      | true => rfl
    exact ((idInUse_iff reg _).1 h2).2
  have hinj : Set.InjOn (fun j => candAt base sep j)
      (Finset.Icc 1 (reg.length + 1)) := by
    intro a ha b hb hab
    simp only [Finset.coe_Icc, Set.mem_Icc] at ha hb
    obtain ⟨a2, rfl⟩ : ∃ a2, a = a2 + 1 := ⟨a - 1, by omega⟩
    obtain ⟨b2, rfl⟩ : ∃ b2, b = b2 + 1 := ⟨b - 1, by omega⟩
    have := candAt_inj base sep a2 b2 hab
    omega
  have hcard : ((Finset.Icc 1 (reg.length + 1)).image
      fun j => candAt base sep j).card = reg.length + 1 := by
    rw [Finset.card_image_of_injOn hinj, Nat.card_Icc]
    omega
  have hsub : ((Finset.Icc 1 (reg.length + 1)).image
      fun j => candAt base sep j) ⊆ reg.toFinset := by
    intro x hx
    rw [Finset.mem_image] at hx
    obtain ⟨j, hj, rfl⟩ := hx
    rw [Finset.mem_Icc] at hj
    rw [List.mem_toFinset]
    exact htaken j (by omega)
  have h1 := Finset.card_le_card hsub
  have h2 := List.toFinset_card_le (l := reg)
  omega

theorem idLoop_spec (reg : List String) (base sep : String) :
    ∀ (fuel k : Nat),
      (∃ j, k ≤ j ∧ j < k + fuel ∧ idInUse reg (candAt base sep j) = false) →
      ∃ m, idLoop reg base sep fuel (suffixAt sep k) (k + 1) = candAt base sep m ∧
        k ≤ m ∧ idInUse reg (candAt base sep m) = false ∧
        ∀ i, k ≤ i → i < m → idInUse reg (candAt base sep i) = true := by
  intro fuel
  induction fuel with
  | zero =>
    rintro k ⟨j, hj1, hj2, _⟩
    omega
  | succ fuel ih =>
    rintro k ⟨j, hkj, hjf, hfree⟩
    show ∃ m, idLoop reg base sep (fuel + 1) (suffixAt sep k) (k + 1) = _ ∧ _
    rw [idLoop]
    by_cases h : idInUse reg (base ++ suffixAt sep k) = true
    · rw [if_pos h]
      have hjk : j ≠ k := by
        intro heq
        rw [heq] at hfree
        rw [show candAt base sep k = base ++ suffixAt sep k from rfl] at hfree
        rw [h] at hfree
        cases hfree
      have hex : ∃ j2, k + 1 ≤ j2 ∧ j2 < (k + 1) + fuel ∧
          idInUse reg (candAt base sep j2) = false :=
        ⟨j, by omega, by omega, hfree⟩
      obtain ⟨m, hm1, hm2, hm3, hm4⟩ := ih (k + 1) hex
      refine ⟨m, ?_, by omega, hm3, ?_⟩
      · rw [show sep ++ Nat.repr (k + 1) = suffixAt sep (k + 1) from rfl]
        exact hm1
      · intro i hki him
        rcases Nat.eq_or_lt_of_le hki with rfl | hlt
        · exact h
        · exact hm4 i hlt him
    · rw [if_neg h]
      refine ⟨k, rfl, Nat.le_refl k, ?_, fun i h1 h2 => by omega⟩
      cases hb : idInUse reg (candAt base sep k) with
      | false => rfl
      | true => exact absurd hb h

theorem generateUniqueId_spec (fmt : IdFormat) (reg : List String)
    (text : String) :
    ∃ m, generateUniqueId fmt reg text = candidate fmt text m ∧
      idInUse reg (candidate fmt text m) = false ∧
      ∀ i, i < m → idInUse reg (candidate fmt text i) = true := by
  obtain ⟨j, hj, hfree⟩ :=
    exists_free_cand reg (baseIdOf fmt (sanitize text)) (spaceReplacement fmt)
  obtain ⟨m, h1, _, h3, h4⟩ :=
    idLoop_spec reg (baseIdOf fmt (sanitize text)) (spaceReplacement fmt)
      (reg.length + 2) 0 ⟨j, Nat.zero_le j, by omega, hfree⟩
  refine ⟨m, ?_, h3, fun i hi => h4 i (Nat.zero_le i) hi⟩
  simpa [generateUniqueId, candidate, suffixAt] using h1

theorem generateUniqueId_fresh (fmt : IdFormat) (reg : List String)
    (text : String) (hb : baseIdOf fmt (sanitize text) ≠ "") :
    generateUniqueId fmt reg text ∉ reg ∧ generateUniqueId fmt reg text ≠ "" := by
  obtain ⟨m, heq, hfree, _⟩ := generateUniqueId_spec fmt reg text
  have hne : candidate fmt text m ≠ "" := by
    rw [show candidate fmt text m
      = baseIdOf fmt (sanitize text) ++ suffixAt (spaceReplacement fmt) m from rfl]
    exact append_ne_empty_left _ _ hb
  refine ⟨?_, by rw [heq]; exact hne⟩
  rw [heq]
  intro hmem
  have h2 : idInUse reg (candidate fmt text m) = true :=
    (idInUse_iff _ _).2 ⟨hne, hmem⟩
  rw [h2] at hfree
  cases hfree

/-! Run-level facts about the id-assignment pass. -/

theorem mem_existingIds {hs : List Heading} {x : String} :
    x ∈ existingIds hs ↔ ∃ h2 ∈ hs, h2.existingId ≠ "" ∧ h2.existingId = x := by
  simp only [existingIds, List.mem_filterMap]
  constructor
  · rintro ⟨h2, hmem, hfx⟩
    by_cases he : h2.existingId = ""
    · rw [if_pos he] at hfx; cases hfx
    · rw [if_neg he] at hfx
      exact ⟨h2, hmem, he, Option.some.inj hfx⟩
  · rintro ⟨h2, hmem, he, rfl⟩
    exact ⟨h2, hmem, by rw [if_neg he]⟩

theorem existingIds_cons (h : Heading) (rest : List Heading) :
    existingIds (h :: rest) =
      if h.existingId = "" then existingIds rest
      else h.existingId :: existingIds rest := by
  simp only [existingIds, List.filterMap_cons]
  by_cases he : h.existingId = "" <;> simp [he]

theorem assignIds_length (fmt : IdFormat) :
    ∀ (hs : List Heading) (reg : List String),
      (assignIds fmt reg hs).1.length = hs.length := by
  intro hs
  induction hs with
  | nil => intro reg; rfl
  | cons h rest ih => intro reg; simp [assignIds, ih]

theorem assignIds_spec (fmt : IdFormat) :
    ∀ (hs : List Heading) (reg : List String),
      (∀ h2 ∈ hs, h2.existingId ≠ "" → h2.existingId ∈ reg) →
      (∀ h2 ∈ hs, h2.existingId = "" → baseIdOf fmt (sanitize h2.text) ≠ "") →
      (existingIds hs).Nodup →
      (assignIds fmt reg hs).1.Nodup ∧
      (∀ x ∈ (assignIds fmt reg hs).1, x ∉ reg ∨ x ∈ existingIds hs) ∧
      (∀ x ∈ reg, x ∈ (assignIds fmt reg hs).2) ∧
      (∀ p ∈ hs.zip (assignIds fmt reg hs).1,
        p.1.existingId = "" → p.2 ∉ reg) := by
  intro hs
  induction hs with
  | nil =>
    intro reg _ _ _
    refine ⟨List.nodup_nil, ?_, ?_, ?_⟩ <;> simp [assignIds]
  | cons h rest ih =>
    intro reg hreg hbase hnodup
    by_cases he : h.existingId = ""
    · -- generation path for the head
      have hb := hbase h (List.mem_cons_self h rest) he
      obtain ⟨hfresh, hgne⟩ := generateUniqueId_fresh fmt reg h.text hb
      have hstep : assignIds fmt reg (h :: rest)
          = (generateUniqueId fmt reg h.text
              :: (assignIds fmt (generateUniqueId fmt reg h.text :: reg) rest).1,
            (assignIds fmt (generateUniqueId fmt reg h.text :: reg) rest).2) := by
        simp [assignIds, assignId, he]
      have hEids : existingIds (h :: rest) = existingIds rest := by
        rw [existingIds_cons, if_pos he]
      have hmemreg : ∀ x ∈ existingIds rest, x ∈ reg := by
        intro x hx
        obtain ⟨h2, hm2, hne2, hx2⟩ := mem_existingIds.1 hx
        rw [← hx2]
        exact hreg h2 (List.mem_cons_of_mem _ hm2) hne2
      obtain ⟨ih1, ih2, ih3, ih4⟩ :=
        ih (generateUniqueId fmt reg h.text :: reg)
          (fun h2 hm hne =>
            List.mem_cons_of_mem _ (hreg h2 (List.mem_cons_of_mem _ hm) hne))
          (fun h2 hm hne => hbase h2 (List.mem_cons_of_mem _ hm) hne)
          (by rw [hEids] at hnodup; exact hnodup)
      rw [hstep, hEids]
      refine ⟨?_, ?_, ?_, ?_⟩
      · rw [List.nodup_cons]
        refine ⟨fun hmem => ?_, ih1⟩
        rcases ih2 _ hmem with hnot | hex
        · exact hnot (List.mem_cons_self _ _)
        · exact hfresh (hmemreg _ hex)
      · intro x hx
        rcases List.mem_cons.1 hx with rfl | hx2
        · exact Or.inl hfresh
        · rcases ih2 x hx2 with hnot | hex
          · exact Or.inl fun hr => hnot (List.mem_cons_of_mem _ hr)
          · exact Or.inr hex
      · intro x hx
        exact ih3 x (List.mem_cons_of_mem _ hx)
      · intro p hp
        rcases List.mem_cons.1 hp with rfl | hp2
        · intro _; exact hfresh
        · intro hpe
          have := ih4 p hp2 hpe
          exact fun hr => this (List.mem_cons_of_mem _ hr)
    · -- passthrough for the head
      have hmem0 : h.existingId ∈ reg := hreg h (List.mem_cons_self h rest) he
      have hstep : assignIds fmt reg (h :: rest)
          = (h.existingId :: (assignIds fmt reg rest).1,
            (assignIds fmt reg rest).2) := by
        simp [assignIds, assignId, he]
      have hEids : existingIds (h :: rest)
          = h.existingId :: existingIds rest := by
        rw [existingIds_cons, if_neg he]
      rw [hEids] at hnodup
      have hnd := List.nodup_cons.1 hnodup
      obtain ⟨ih1, ih2, ih3, ih4⟩ :=
        ih reg (fun h2 hm hne => hreg h2 (List.mem_cons_of_mem _ hm) hne)
          (fun h2 hm hne => hbase h2 (List.mem_cons_of_mem _ hm) hne) hnd.2
      rw [hstep, hEids]
      refine ⟨?_, ?_, ?_, ?_⟩
      · rw [List.nodup_cons]
        refine ⟨fun hmem => ?_, ih1⟩
        rcases ih2 _ hmem with hnot | hex
        · exact hnot hmem0
        · exact hnd.1 hex
      · intro x hx
        rcases List.mem_cons.1 hx with rfl | hx2
        · exact Or.inr (List.mem_cons_self _ _)
        · rcases ih2 x hx2 with hnot | hex
          · exact Or.inl hnot
          · exact Or.inr (List.mem_cons_of_mem _ hex)
      · exact ih3
      · intro p hp
        rcases List.mem_cons.1 hp with rfl | hp2
        · intro hpe; exact absurd hpe he
        · exact ih4 p hp2

/-! Structural lemmas about the outline builder. -/

theorem frameSize_append :
    ∀ a b : List Item, frameSize (a ++ b) = frameSize a + frameSize b := by
  intro a b
  induction a with
  | nil => simp [frameSize]
  | cons i is ih => simp [frameSize, ih]; omega

theorem subsSize_append :
    ∀ a b : List (List Item), subsSize (a ++ b) = subsSize a + subsSize b := by
  intro a b
  induction a with
  | nil => simp [subsSize]
  | cons l ls ih => simp [subsSize, ih]; omega

theorem appendSub_ne_nil (parent sub : List Item) (hp : parent ≠ []) :
    appendSub parent sub ≠ [] := by
  cases parent with
  | nil => exact absurd rfl hp
  | cons x xs =>
    cases xs with
    | nil => cases x with | mk t i subs => simp [appendSub]
    | cons y rest => simp [appendSub]

theorem appendSub_size :
    ∀ (parent sub : List Item), parent ≠ [] →
      frameSize (appendSub parent sub) = frameSize parent + frameSize sub := by
  intro parent
  induction parent with
  | nil => intro sub hp; exact absurd rfl hp
  | cons x xs ih =>
    intro sub _
    cases xs with
    | nil =>
      cases x with
      | mk t i subs =>
        simp [appendSub, frameSize, itemSize, subsSize_append, subsSize]
        omega
    | cons y rest =>
      have h2 := ih sub (by simp)
      simp [appendSub, frameSize, h2]
      omega

theorem appendItem_size (s : List (List Item)) (it : Item) (h : s ≠ []) :
    subsSize (appendItem s it) = subsSize s + itemSize it := by
  cases s with
  | nil => exact absurd rfl h
  | cons top rest =>
    simp [appendItem, subsSize, frameSize_append, frameSize]
    omega

theorem popOnce_spec (s : List (List Item)) (h2 : 2 ≤ s.length)
    (hall : ∀ f ∈ s, f ≠ []) :
    subsSize (popOnce s) = subsSize s ∧
    (popOnce s).length = s.length - 1 ∧
    (∀ f ∈ popOnce s, f ≠ []) := by
  cases s with
  | nil => simp at h2
  | cons top s2 =>
    cases s2 with
    | nil => simp at h2
    | cons next rest =>
      have hnext : next ≠ [] := hall next (by simp)
      refine ⟨?_, by simp [popOnce], ?_⟩
      · simp [popOnce, subsSize, appendSub_size next top hnext]
        omega
      · intro f hf
        simp only [popOnce, List.mem_cons] at hf
        rcases hf with rfl | hf2
        · exact appendSub_ne_nil next top hnext
        · exact hall f (by simp [hf2])

theorem popN_spec :
    ∀ (k : Nat) (s : List (List Item)), k + 1 ≤ s.length →
      (∀ f ∈ s, f ≠ []) →
      subsSize (popN k s) = subsSize s ∧
      (popN k s).length = s.length - k ∧
      (∀ f ∈ popN k s, f ≠ []) := by
  intro k
  induction k with
  | zero =>
    intro s _ hall
    exact ⟨rfl, by simp [popN], fun f hf => hall f (by simpa [popN] using hf)⟩
  | succ k ih =>
    intro s hlen hall
    obtain ⟨hsz, hln, hne⟩ := popOnce_spec s (by omega) hall
    obtain ⟨ih1, ih2, ih3⟩ := ih (popOnce s) (by omega) hne
    refine ⟨?_, ?_, ih3⟩
    · rw [show popN (k + 1) s = popN k (popOnce s) from rfl, ih1, hsz]
    · rw [show popN (k + 1) s = popN k (popOnce s) from rfl, ih2, hln]
      omega

theorem popN_shape :
    ∀ (k : Nat) (s : List (List Item)), k + 1 ≤ s.length →
      ∃ f, popN k s = f :: s.drop (k + 1) := by
  intro k
  induction k with
  | zero =>
    intro s h
    cases s with
    | nil => simp at h
    | cons a rest => exact ⟨a, by simp [popN]⟩
  | succ k ih =>
    intro s h
    cases s with
    | nil => simp at h
    | cons top s2 =>
      cases s2 with
      | nil => simp at h
      | cons next rest =>
        have hlen : k + 1 ≤ (popOnce (top :: next :: rest)).length := by
          simp [popOnce] at *
          omega
        obtain ⟨f, hf⟩ := ih (popOnce (top :: next :: rest)) hlen
        refine ⟨f, ?_⟩
        rw [show popN (k + 1) (top :: next :: rest)
          = popN k (popOnce (top :: next :: rest)) from rfl, hf]
        simp [popOnce]

theorem popN_length (k : Nat) (s : List (List Item)) (h : k + 1 ≤ s.length) :
    (popN k s).length = s.length - k := by
  obtain ⟨f, hf⟩ := popN_shape k s h
  rw [hf]
  simp [List.length_drop]
  omega

/-- Invariant maintained by the outline builder between headings: the stack
is nonempty, and as soon as a nested list has been opened (height at least
2) every open list on the stack holds at least one item.  The root list may
be empty only while it is the whole stack (before the first heading). -/
def Inv (s : List (List Item)) : Prop :=
  s ≠ [] ∧ (2 ≤ s.length → ∀ f ∈ s, f ≠ [])

theorem processHeading_eq_descend (st : TocState) (level : Nat)
    (text id : String) (top : List Item) (rest : List (List Item))
    (hstack : st.stack = top :: rest) (hgt : st.currentLevel < level) :
    processHeading st level text id
      = { stack :=
            if top.isEmpty then (top ++ [Item.mk text id []]) :: rest
            else [Item.mk text id []] :: top :: rest,
          currentLevel := level } := by
  simp only [processHeading, if_pos hgt, hstack]
  by_cases hti : top.isEmpty
  · simp [hti, appendItem]
  · simp [hti, appendItem]

theorem processHeading_eq_pop (st : TocState) (level : Nat)
    (text id : String) (hle : ¬ st.currentLevel < level) :
    processHeading st level text id
      = { stack :=
            appendItem
              (popN (min (st.currentLevel - level) (st.stack.length - 1))
                st.stack)
              (Item.mk text id []),
          currentLevel := level } := by
  simp [processHeading, hle]

theorem processHeading_stack_length (st : TocState) (level : Nat)
    (text id : String) (h : st.stack ≠ []) :
    (processHeading st level text id).stack ≠ [] ∧
    (processHeading st level text id).stack.length ≤ st.stack.length + 1 := by
  obtain ⟨top, rest, hstack⟩ : ∃ top rest, st.stack = top :: rest := by
    cases hs : st.stack with
    | nil => exact absurd hs h
    | cons a b => exact ⟨a, b, rfl⟩
  by_cases hgt : st.currentLevel < level
  · rw [processHeading_eq_descend st level text id top rest hstack hgt]
    by_cases hti : top.isEmpty
    · simp [hti, hstack]
    · simp [hti, hstack]
  · rw [processHeading_eq_pop st level text id hgt]
    have hlen : 1 ≤ st.stack.length := by rw [hstack]; simp
    have hk : min (st.currentLevel - level) (st.stack.length - 1) + 1
        ≤ st.stack.length := by omega
    obtain ⟨f, hf⟩ := popN_shape _ st.stack hk
    rw [hf]
    simp [appendItem]

theorem processHeading_size_inv (st : TocState) (level : Nat)
    (text id : String) (hInv : Inv st.stack) :
    subsSize (processHeading st level text id).stack
      = subsSize st.stack + 1 ∧
    Inv (processHeading st level text id).stack := by
  obtain ⟨top, rest, hstack⟩ : ∃ top rest, st.stack = top :: rest := by
    cases hs : st.stack with
    | nil => exact absurd hs hInv.1
    | cons a b => exact ⟨a, b, rfl⟩
  have hone : itemSize (Item.mk text id []) = 1 := by simp [itemSize, subsSize]
  by_cases hgt : st.currentLevel < level
  · rw [processHeading_eq_descend st level text id top rest hstack hgt]
    by_cases hti : top.isEmpty
    · have htop : top = [] := by simpa using hti
      subst htop
      have hrest : rest = [] := by
        cases hr : rest with
        | nil => rfl
        | cons a b =>
          have h2 : 2 ≤ st.stack.length := by rw [hstack, hr]; simp
          have := hInv.2 h2 [] (by rw [hstack]; exact List.mem_cons_self _ _)
          exact absurd rfl this
      subst hrest
      constructor
      · simp [hstack, hti, subsSize, frameSize, hone]
      · refine ⟨by simp [hti], ?_⟩
        intro h2
        simp [hti] at h2
    · have htop : top ≠ [] := by simpa using hti
      constructor
      · simp only [if_neg hti, hstack, subsSize]
        simp [frameSize, hone]
        omega
      · refine ⟨by simp [hti], ?_⟩
        intro _ f hf
        simp only [if_neg hti, List.mem_cons] at hf
        rcases hf with rfl | hf2
        · simp
        · rcases hf2 with rfl | hf3
          · exact htop
          · have h2 : 2 ≤ st.stack.length := by
              rw [hstack]
              cases hr : rest with
              | nil => rw [hr] at hf3; simp at hf3
              | cons a b => simp
            exact hInv.2 h2 f (by rw [hstack]; exact List.mem_cons_of_mem _ hf3)
  · rw [processHeading_eq_pop st level text id hgt]
    have hlen : 1 ≤ st.stack.length := by rw [hstack]; simp
    by_cases h1 : st.stack.length = 1
    · have hrest : rest = [] := by
        rw [hstack] at h1
        simpa using h1
      have hk : min (st.currentLevel - level) (st.stack.length - 1) = 0 := by
        rw [h1]; simp
      rw [hk]
      subst hrest
      constructor
      · rw [show popN 0 st.stack = st.stack from rfl,
          appendItem_size st.stack _ (by rw [hstack]; simp), hone]
      · refine ⟨?_, ?_⟩
        · rw [show popN 0 st.stack = st.stack from rfl, hstack]
          simp [appendItem]
        · intro h2
          rw [show popN 0 st.stack = st.stack from rfl, hstack] at h2 ⊢
          simp [appendItem] at h2
    · have h2 : 2 ≤ st.stack.length := by omega
      have hall : ∀ f ∈ st.stack, f ≠ [] := hInv.2 h2
      have hk : min (st.currentLevel - level) (st.stack.length - 1) + 1
          ≤ st.stack.length := by omega
      obtain ⟨hsz, hln, hne⟩ := popN_spec _ st.stack hk hall
      have hpne : popN (min (st.currentLevel - level) (st.stack.length - 1))
          st.stack ≠ [] := by
        intro h0
        rw [h0] at hln
        simp at hln
        omega
      constructor
      · rw [appendItem_size _ _ hpne, hsz, hone]
      · obtain ⟨f, hf⟩ : ∃ f fs, popN (min (st.currentLevel - level)
            (st.stack.length - 1)) st.stack = f :: fs := by
          cases hp : popN _ st.stack with
          | nil => exact absurd hp hpne
          | cons a b => exact ⟨a, b, rfl⟩
        obtain ⟨fs, hf⟩ := hf
        rw [hf]
        refine ⟨by simp [appendItem], ?_⟩
        intro _ g hg
        simp only [appendItem, List.mem_cons] at hg
        rcases hg with rfl | hg2
        · simp
        · exact hne g (by rw [hf]; exact List.mem_cons_of_mem _ hg2)

theorem finalize_size_aux :
    ∀ (rest : List (List Item)) (top : List Item),
      (∀ f ∈ rest, f ≠ []) →
      frameSize (List.foldl (fun acc f => appendSub f acc) top rest)
        = frameSize top + subsSize rest := by
  intro rest
  induction rest with
  | nil => intro top _; simp [subsSize]
  | cons next rest2 ih =>
    intro top hall
    have hnext : next ≠ [] := hall next (List.mem_cons_self _ _)
    simp only [List.foldl_cons]
    rw [ih (appendSub next top) (fun f hf => hall f (List.mem_cons_of_mem _ hf)),
      appendSub_size next top hnext]
    simp [subsSize]
    omega

theorem finalize_size (s : List (List Item)) (hInv : Inv s) :
    frameSize (finalize s) = subsSize s := by
  obtain ⟨top, rest, hs⟩ : ∃ top rest, s = top :: rest := by
    cases h0 : s with
    | nil => exact absurd h0 hInv.1
    | cons a b => exact ⟨a, b, rfl⟩
  subst hs
  have hall : ∀ f ∈ rest, f ≠ [] := by
    intro f hf
    have h2 : 2 ≤ (top :: rest).length := by
      cases rest with
      | nil => simp at hf
      | cons a b => simp
    exact hInv.2 h2 f (List.mem_cons_of_mem _ hf)
  rw [show finalize (top :: rest)
    = List.foldl (fun acc f => appendSub f acc) top rest from rfl]
  rw [finalize_size_aux rest top hall]
  simp [subsSize]

theorem initState_inv : Inv initState.stack := by
  refine ⟨by simp [initState], ?_⟩
  intro h2
  simp [initState] at h2

theorem buildOutline_aux :
    ∀ (ps : List (Heading × String)) (st : TocState), Inv st.stack →
      subsSize ((ps.foldl
        (fun st p => processHeading st p.1.level p.1.text p.2) st).stack)
        = subsSize st.stack + ps.length ∧
      Inv ((ps.foldl
        (fun st p => processHeading st p.1.level p.1.text p.2) st).stack) := by
  intro ps
  induction ps with
  | nil => intro st h; exact ⟨by simp, h⟩
  | cons p ps2 ih =>
    intro st h
    obtain ⟨h1, h2⟩ := processHeading_size_inv st p.1.level p.1.text p.2 h
    obtain ⟨ih1, ih2⟩ := ih (processHeading st p.1.level p.1.text p.2) h2
    refine ⟨?_, ih2⟩
    simp only [List.foldl_cons]
    rw [ih1, h1]
    simp only [List.length_cons]
    omega

theorem foldl_stack_ne :
    ∀ (ps : List (Heading × String)) (st : TocState), st.stack ≠ [] →
      (ps.foldl
        (fun st p => processHeading st p.1.level p.1.text p.2) st).stack ≠ [] := by
  intro ps
  induction ps with
  | nil => intro st h; exact h
  | cons p ps2 ih =>
    intro st h
    exact ih _ (processHeading_stack_length st p.1.level p.1.text p.2 h).1

theorem runToc_size (fmt : IdFormat) (extra : List String) (hs : List Heading) :
    frameSize (runToc fmt extra hs) = hs.length := by
  have hlen : (runAssign fmt extra hs).length = hs.length :=
    assignIds_length fmt hs (docIds extra hs)
  obtain ⟨hsz, hinv⟩ :=
    buildOutline_aux (hs.zip (runAssign fmt extra hs)) initState initState_inv
  rw [runToc, show buildOutline hs (runAssign fmt extra hs)
    = (hs.zip (runAssign fmt extra hs)).foldl
        (fun st p => processHeading st p.1.level p.1.text p.2) initState from rfl,
    finalize_size _ hinv, hsz]
  simp [initState, subsSize, frameSize, List.length_zip, hlen]

/-! Settling the claims. -/

/-- Claim C1: the claim states that empty or whitespace-only heading text
uses the literal placeholder base `"?"`.  The code does substitute `"?"`
for the empty text (source line 83), but the sanitizing filter on line 87
then removes it (the question mark is not in `[\w\-\s]`), so the empty text
yields the empty base and the empty id, contradicting the comment at source
lines 56-58 that ids must be at least one character long; whitespace-only
text has nonzero length, never takes the placeholder branch, and yields the
bare space-replacement character (or the empty id under camel case). -/
theorem claim_C1 :
    sanitize "" = "" ∧
    generateUniqueId IdFormat.underscore [] "" = "" ∧
    generateUniqueId IdFormat.underscore [] " " = "_" ∧
    generateUniqueId IdFormat.kebab [] " " = "-" ∧
    generateUniqueId IdFormat.camel [] " " = "" := by
  refine ⟨by decide, by decide, by decide, by decide, by decide⟩

/-- Claim C2: id generation tries the unsuffixed base first, then
`sep ++ "1"`, `sep ++ "2"`, ..., returning the first candidate not in use
in the live document, with `sep` the space-replacement string of the
format; moreover a generated id is pushed onto the registry seen by the
remainder of the run, so ids assigned earlier count as taken. -/
theorem claim_C2 :
    (∀ (fmt : IdFormat) (reg : List String) (text : String),
      ∃ m, generateUniqueId fmt reg text = candidate fmt text m ∧
        idInUse reg (candidate fmt text m) = false ∧
        ∀ i, i < m → idInUse reg (candidate fmt text i) = true) ∧
    (spaceReplacement IdFormat.underscore = "_" ∧
      spaceReplacement IdFormat.kebab = "-" ∧
      spaceReplacement IdFormat.camel = "") ∧
    (∀ (fmt : IdFormat) (reg : List String) (h : Heading),
      h.existingId = "" →
      assignId fmt reg h
        = (generateUniqueId fmt reg h.text,
          generateUniqueId fmt reg h.text :: reg)) := by
  refine ⟨generateUniqueId_spec, ⟨rfl, rfl, rfl⟩, ?_⟩
  intro fmt reg h he
  simp [assignId, he]

/-- Witness for C2 at concrete inputs. -/
theorem claim_C2_witness :
    (∃ m, generateUniqueId IdFormat.underscore ["foo"] "foo"
        = candidate IdFormat.underscore "foo" m ∧
      idInUse ["foo"] (candidate IdFormat.underscore "foo" m) = false ∧
      ∀ i, i < m →
        idInUse ["foo"] (candidate IdFormat.underscore "foo" i) = true) ∧
    assignId IdFormat.underscore [] ⟨"t", "", 0⟩
      = (generateUniqueId IdFormat.underscore [] "t",
        generateUniqueId IdFormat.underscore [] "t" :: []) :=
  ⟨claim_C2.1 IdFormat.underscore ["foo"] "foo",
    claim_C2.2.2 IdFormat.underscore [] ⟨"t", "", 0⟩ rfl⟩

/-- Claim C3: for a heading at level at most `currentLevel` and a nonempty
stack, exactly `min (currentLevel - level) (stackHeight - 1)` entries are
removed from the top before the new item is appended, the deeper entries
are untouched, and the stack stays nonempty (the root container is never
removed). -/
theorem claim_C3 (st : TocState) (level : Nat) (text id : String)
    (h1 : 1 ≤ st.stack.length) (h2 : level ≤ st.currentLevel) :
    (processHeading st level text id).stack.length
      = st.stack.length
        - min (st.currentLevel - level) (st.stack.length - 1) ∧
    1 ≤ (processHeading st level text id).stack.length ∧
    ∃ newTop, (processHeading st level text id).stack
      = (newTop ++ [Item.mk text id []])
        :: st.stack.drop
          (min (st.currentLevel - level) (st.stack.length - 1) + 1) := by
  have hle : ¬ st.currentLevel < level := by omega
  rw [processHeading_eq_pop st level text id hle]
  have hk : min (st.currentLevel - level) (st.stack.length - 1) + 1
      ≤ st.stack.length := by omega
  obtain ⟨f, hf⟩ := popN_shape _ st.stack hk
  rw [hf]
  refine ⟨?_, by simp [appendItem], ⟨f, by simp [appendItem]⟩⟩
  simp [appendItem, List.length_drop]
  omega

/-- Witness for C3 at a concrete two-level stack. -/
theorem claim_C3_witness :
    (processHeading
      ⟨[[Item.mk "b" "idb" []], [Item.mk "a" "ida" []]], 1⟩
      0 "c" "idc").stack.length = 1 := by
  rw [(claim_C3 ⟨[[Item.mk "b" "idb" []], [Item.mk "a" "ida" []]], 1⟩
    0 "c" "idc" (by simp) (by simp)).1]
  decide

/-- Claim C4: for a heading deeper than `currentLevel`, when the top list
has at least one item a new nested list is opened (pushed as the new top,
receiving the new item; at pop time it is attached as a child of the last
item of the previous top); when the top list is empty no nesting level is
created and the item is appended to the current top list. -/
theorem claim_C4 (st : TocState) (level : Nat) (text id : String)
    (top : List Item) (rest : List (List Item))
    (hstack : st.stack = top :: rest) (hgt : st.currentLevel < level) :
    (top ≠ [] → (processHeading st level text id).stack
      = [Item.mk text id []] :: top :: rest) ∧
    (top = [] → (processHeading st level text id).stack
      = [Item.mk text id []] :: rest) ∧
    (processHeading st level text id).currentLevel = level := by
  rw [processHeading_eq_descend st level text id top rest hstack hgt]
  refine ⟨?_, ?_, rfl⟩
  · intro h
    have : top.isEmpty = false := by
      cases top with
      | nil => exact absurd rfl h
      | cons a b => rfl
    simp [this]
  · intro h
    subst h
    simp

/-- Witness for C4: dropping from level 0 to level 1 under an existing item
opens a nested list; the heading lands in it. -/
theorem claim_C4_witness :
    (processHeading ⟨[[Item.mk "a" "ida" []]], 0⟩ 1 "b" "idb").stack
      = [Item.mk "b" "idb" []] :: [Item.mk "a" "ida" []] :: [] :=
  (claim_C4 ⟨[[Item.mk "a" "ida" []]], 0⟩ 1 "b" "idb"
    [Item.mk "a" "ida" []] [] rfl (by decide)).1 (List.cons_ne_nil _ _)

/-- Claim C5 as stated is false: pre-existing ids are passed through with
no uniqueness check, so two headings carrying the same pre-existing id
"foo" make the run return the same identifier twice. -/
theorem claim_C5_counterexample :
    runAssign IdFormat.underscore [] [⟨"a", "foo", 0⟩, ⟨"b", "foo", 0⟩]
      = ["foo", "foo"] ∧
    ¬ (runAssign IdFormat.underscore []
        [⟨"a", "foo", 0⟩, ⟨"b", "foo", 0⟩]).Nodup := by
  refine ⟨by decide, by decide⟩

/-- Claim C5, amended: provided the nonempty pre-existing ids carried by
the headings are pairwise distinct and every generated base id is nonempty
(the empty base only arises from text that sanitizes to nothing, the C1
slip), no two identifiers returned by a run are equal; and an identifier
returned by the generation path never equals an id of the initial
registry. -/
theorem claim_C5 (fmt : IdFormat) (extra : List String) (hs : List Heading)
    (hnodup : (existingIds hs).Nodup)
    (hbase : ∀ h2 ∈ hs, h2.existingId = "" →
      baseIdOf fmt (sanitize h2.text) ≠ "") :
    (runAssign fmt extra hs).Nodup ∧
    ∀ p ∈ hs.zip (runAssign fmt extra hs), p.1.existingId = "" →
      p.2 ∉ docIds extra hs := by
  have hreg : ∀ h2 ∈ hs, h2.existingId ≠ "" →
      h2.existingId ∈ docIds extra hs := by
    intro h2 hm hne
    rw [docIds, List.mem_append]
    exact Or.inr (mem_existingIds.2 ⟨h2, hm, hne, rfl⟩)
  obtain ⟨h1, _, _, h4⟩ :=
    assignIds_spec fmt hs (docIds extra hs) hreg hbase hnodup
  exact ⟨h1, h4⟩

/-- Witness for C5 at a concrete colliding run: two headings with the same
text get distinct generated ids. -/
theorem claim_C5_witness :
    (runAssign IdFormat.underscore [] [⟨"a", "", 0⟩, ⟨"a", "", 0⟩]).Nodup ∧
    ∀ p ∈ ([⟨"a", "", 0⟩, ⟨"a", "", 0⟩] : List Heading).zip
        (runAssign IdFormat.underscore [] [⟨"a", "", 0⟩, ⟨"a", "", 0⟩]),
      p.1.existingId = "" →
      p.2 ∉ docIds [] [⟨"a", "", 0⟩, ⟨"a", "", 0⟩] :=
  claim_C5 IdFormat.underscore [] [⟨"a", "", 0⟩, ⟨"a", "", 0⟩]
    (by decide) (by decide)

/-- Claim C6: with an empty registry, the text "Hello World" yields
"Hello_World" under the underscore format, "hello-world" under kebab-case,
and "helloWorld" under camelCase, both as base id and as generated id. -/
theorem claim_C6 :
    baseIdOf IdFormat.underscore (sanitize "Hello World") = "Hello_World" ∧
    baseIdOf IdFormat.kebab (sanitize "Hello World") = "hello-world" ∧
    baseIdOf IdFormat.camel (sanitize "Hello World") = "helloWorld" ∧
    generateUniqueId IdFormat.underscore [] "Hello World" = "Hello_World" ∧
    generateUniqueId IdFormat.kebab [] "Hello World" = "hello-world" ∧
    generateUniqueId IdFormat.camel [] "Hello World" = "helloWorld" := by
  refine ⟨by decide, by decide, by decide, by decide, by decide, by decide⟩

/-- Claim C7: a heading with a nonempty pre-existing id is returned
unchanged, with no uniqueness check and no registry change; a later heading
whose generated candidate collides with that pre-existing id receives a
suffix instead. -/
theorem claim_C7 :
    (∀ (fmt : IdFormat) (reg : List String) (h : Heading),
      h.existingId ≠ "" → assignId fmt reg h = (h.existingId, reg)) ∧
    runAssign IdFormat.underscore [] [⟨"x", "foo", 0⟩, ⟨"foo", "", 0⟩]
      = ["foo", "foo_1"] := by
  refine ⟨?_, by decide⟩
  intro fmt reg h he
  simp [assignId, he]

/-- Witness for C7: the pre-existing id "foo" passes through an arbitrary
registry unchanged. -/
theorem claim_C7_witness :
    assignId IdFormat.underscore ["foo"] ⟨"a", "foo", 0⟩
      = ("foo", ["foo"]) :=
  claim_C7.1 IdFormat.underscore ["foo"] ⟨"a", "foo", 0⟩ (by decide)

/-- Claim C8: one heading step on a nonempty stack leaves it nonempty and
grows its height by at most one; a whole outline run keeps the stack
nonempty. -/
theorem claim_C8 :
    (∀ (st : TocState) (level : Nat) (text id : String), st.stack ≠ [] →
      (processHeading st level text id).stack ≠ [] ∧
      (processHeading st level text id).stack.length
        ≤ st.stack.length + 1) ∧
    ∀ (hs : List Heading) (ids : List String),
      (buildOutline hs ids).stack ≠ [] := by
  refine ⟨processHeading_stack_length, ?_⟩
  intro hs ids
  exact foldl_stack_ne (hs.zip ids) initState (List.cons_ne_nil _ _)

/-- Witness for C8 at the initial stack. -/
theorem claim_C8_witness :
    (processHeading ⟨[[]], 0⟩ 0 "a" "ida").stack ≠ [] ∧
    (processHeading ⟨[[]], 0⟩ 0 "a" "ida").stack.length
      ≤ (⟨[[]], 0⟩ : TocState).stack.length + 1 :=
  claim_C8.1 ⟨[[]], 0⟩ 0 "a" "ida" (List.cons_ne_nil _ _)

/-- Claim C9: determinism.  The embedded run is a pure function of the
heading sequence and the format, so two runs from an empty initial registry
agree on every assigned id and on the produced tree. -/
theorem claim_C9 (fmt : IdFormat) (hs : List Heading) :
    runAssign fmt [] hs = runAssign fmt [] hs ∧
    runToc fmt [] hs = runToc fmt [] hs :=
  ⟨rfl, rfl⟩

/-- Claim C10: each heading step appends exactly one list item, so the
finished outline holds exactly one item per processed heading, whatever the
level sequence. -/
theorem claim_C10 :
    (∀ (fmt : IdFormat) (extra : List String) (hs : List Heading),
      frameSize (runToc fmt extra hs) = hs.length) ∧
    ∀ (st : TocState) (level : Nat) (text id : String), Inv st.stack →
      subsSize (processHeading st level text id).stack
        = subsSize st.stack + 1 := by
  exact ⟨runToc_size,
    fun st level text id h => (processHeading_size_inv st level text id h).1⟩

/-- Witness for C10 at the initial stack. -/
theorem claim_C10_witness :
    subsSize (processHeading ⟨[[]], 0⟩ 0 "a" "ida").stack
      = subsSize (⟨[[]], 0⟩ : TocState).stack + 1 :=
  claim_C10.2 ⟨[[]], 0⟩ 0 "a" "ida"
    ⟨List.cons_ne_nil _ _, fun h2 => absurd h2 (by decide)⟩

end Toc
